import Mathlib

/-!
Verification of the NSocial search/filter core (search-engine module and
data-loader module) against its specification.

Strings are modeled as lists of characters (`Str`).  JavaScript numbers are
modeled as rationals; a `JsNum` is `Option ℚ`, with `none` standing for NaN
(the only non-finite value reachable in this code, via `0/0`).  JavaScript's
ASCII-relevant `toLowerCase` is modeled by `Char.toLower`.
-/

namespace NSocial

/-- Strings as lists of characters. -/
abbrev Str := List Char

/-- Convert a Lean string literal to the `Str` model. -/
def str (s : String) : Str := s.data

/-- JS `String.prototype.toLowerCase` (ASCII range). -/
def toLowerStr (s : Str) : Str := s.map Char.toLower

/-- JS `String.prototype.includes`: `jsIncludes s sub` is `s.includes(sub)`. -/
def jsIncludes (s sub : Str) : Bool := decide (List.IsInfix sub s)

/-- Whitespace characters recognized by JS `trim`, `\s` (common subset). -/
def isWsChar (c : Char) : Bool :=
  c == ' ' || c == '\t' || c == '\n' || c == '\r' || c == '\x0b' || c == '\x0c'

/-- JS `String.prototype.trim`. -/
def jsTrim (s : Str) : Str :=
  ((s.dropWhile isWsChar).reverse.dropWhile isWsChar).reverse

/-- JS `s.split(' ')`: split on the single space character, keeping empty
pieces (`"".split(' ')` is `[""]`). -/
def splitOnSpace : Str → List Str
  | [] => [[]]
  | c :: cs =>
    match splitOnSpace cs with
    | [] => []
    | w :: ws => if c = ' ' then [] :: w :: ws else (c :: w) :: ws

/-!
## Levenshtein distance (search-engine.js `levenshteinDistance`)

The source builds the classic DP matrix row by row:
`matrix[i][j]` is the edit distance between the first `i` characters of `b`
and the first `j` characters of `a`; row `0` is `0..a.length`, each later row
starts with its row index and is filled left to right from the previous row.
`levRowGo` computes the tail of row `i` (columns `1..a.length`) from the
remaining characters of `a`, the previous row suffix and the entry to the
left; `levenshteinDistance` folds the rows over `b` and returns the bottom
right corner `matrix[b.length][a.length]`.
-/

def levRowGo (bc : Char) : Str → List Nat → Nat → List Nat
  | [], _, _ => []
  | _ :: _, [], _ => []
  | c :: cs, pd :: pRest, cur =>
    let v := if bc = c then pd
             else min (pd + 1) (min (cur + 1) (pRest.headD 0 + 1))
    v :: levRowGo bc cs pRest v

/-- `levenshteinDistance a b` from the source: the DP matrix corner
`matrix[b.length][a.length]`. -/
def levenshteinDistance (a b : Str) : Nat :=
  let row0 := List.range (a.length + 1)
  let lastRow := b.foldl
    (fun prev bc => (prev.headD 0 + 1) :: levRowGo bc a prev (prev.headD 0 + 1))
    row0
  lastRow.getLastD 0

/-- The recurrence satisfied by the DP matrix of `levenshteinDistance`:
`levMat a b i j` is `matrix[i][j]` (distance between the length-`i` prefix of
`b` and the length-`j` prefix of `a`). -/
def levMat (a b : Str) : Nat → Nat → Nat
  | 0, j => j
  | i + 1, 0 => i + 1
  | i + 1, j + 1 =>
    if b.getD i ' ' = a.getD j ' ' then levMat a b i j
    else min (levMat a b i j + 1)
      (min (levMat a b (i + 1) j + 1) (levMat a b i (j + 1) + 1))
  termination_by i j => i + j

/-- `cells f s n = [f s, f (s+1), …, f (s+n-1)]`: a row segment of the DP
matrix described by a cell function. -/
def cells (f : Nat → Nat) : Nat → Nat → List Nat
  | _, 0 => []
  | s, n + 1 => f s :: cells f (s + 1) n

/-- `stringSimilarity` from the source. -/
def stringSimilarity (a b : Str) : ℚ :=
  if a = b then 1
  else if a.length = 0 ∨ b.length = 0 then 0
  else
    let longer := if a.length > b.length then a else b
    let shorter := if a.length > b.length then b else a
    if longer.length = 0 then 1
    else ((longer.length : ℚ) - levenshteinDistance longer shorter) / longer.length

/-- `fuzzyMatch` from the source: terms shorter than 4 never fuzzy-match;
otherwise some space-delimited word of the text of length at least 3 must have
similarity above 0.7. -/
def fuzzyMatch (text term : Str) : Bool :=
  if term.length < 4 then false
  else (splitOnSpace text).any fun word =>
    if word.length < 3 then false
    else decide (stringSimilarity word term > 7 / 10)

/-!
## Classic Levenshtein distance (specification side)

The specification's "classic Levenshtein edit distance with
insertion/deletion/substitution each costing 1" is Mathlib's
`levenshtein Levenshtein.defaultCost`.  We relate the source's DP-matrix
computation to it.
-/

/-- The unit cost structure: insertion, deletion and substitution all cost 1
(substitution of equal characters costs 0). -/
def dC : Levenshtein.Cost Char Char ℕ := Levenshtein.defaultCost

theorem dC_delete (c : Char) : dC.delete c = 1 := rfl

theorem dC_insert (c : Char) : dC.insert c = 1 := rfl

theorem dC_substitute (c d : Char) : dC.substitute c d = if c = d then 0 else 1 := rfl

theorem lev_nil_left (ys : Str) : levenshtein dC [] ys = ys.length := by
  induction ys with
  | nil => simp
  | cons y ys ih => simp [ih, dC_insert]; omega

theorem lev_nil_right (xs : Str) : levenshtein dC xs [] = xs.length := by
  induction xs with
  | nil => simp
  | cons x xs ih => simp [ih, dC_delete]; omega

theorem lev_le_cons_right :
    ∀ (n : ℕ) (xs ys : Str) (y : Char), xs.length + ys.length ≤ n →
      levenshtein dC xs ys ≤ 1 + levenshtein dC xs (y :: ys) := by
  intro n
  induction n with
  | zero =>
    intro xs ys y h
    match xs, ys with
    | [], [] => simp [lev_nil_left]
    | x :: xs, _ => simp at h
    | [], y' :: ys => simp at h
  | succ n ih =>
    intro xs ys y h
    match xs, ys with
    | [], ys => rw [lev_nil_left, lev_nil_left]; simp; omega
    | x :: xs, [] =>
      have h1 : levenshtein dC xs [] ≤ 1 + levenshtein dC xs [y] := by
        apply ih; simp at h ⊢; omega
      rw [lev_nil_right] at h1
      simp only [levenshtein_cons_cons, levenshtein_cons_nil, lev_nil_right, lev_nil_left,
        dC_delete, dC_insert, dC_substitute]
      split_ifs <;> omega
    | x :: xs, y' :: ys =>
      have h1 : levenshtein dC xs (y' :: ys) ≤ 1 + levenshtein dC xs (y :: y' :: ys) := by
        apply ih; simp at h ⊢; omega
      simp only [levenshtein_cons_cons, dC_delete, dC_insert, dC_substitute]
      split_ifs <;> omega

theorem lev_le_cons_left :
    ∀ (n : ℕ) (xs ys : Str) (x : Char), xs.length + ys.length ≤ n →
      levenshtein dC xs ys ≤ 1 + levenshtein dC (x :: xs) ys := by
  intro n
  induction n with
  | zero =>
    intro xs ys x h
    match xs, ys with
    | [], [] => simp [lev_nil_right]
    | x' :: xs, _ => simp at h
    | [], y' :: ys => simp at h
  | succ n ih =>
    intro xs ys x h
    match xs, ys with
    | xs, [] => rw [lev_nil_right, lev_nil_right]; simp; omega
    | [], y :: ys =>
      have h1 : levenshtein dC [] ys ≤ 1 + levenshtein dC [x] ys := by
        apply ih; simp at h ⊢; omega
      rw [lev_nil_left] at h1
      simp only [levenshtein_cons_cons, levenshtein_nil_cons, lev_nil_right, lev_nil_left,
        dC_delete, dC_insert, dC_substitute]
      split_ifs <;> omega
    | x' :: xs, y :: ys =>
      have h1 : levenshtein dC (x' :: xs) ys ≤ 1 + levenshtein dC (x :: x' :: xs) ys := by
        apply ih; simp at h ⊢; omega
      simp only [levenshtein_cons_cons, dC_delete, dC_insert, dC_substitute]
      split_ifs <;> omega

/-- Min-algebra identity behind the exchange of the first-character and
last-character expansions of the Levenshtein recurrence: both sides are the
minimum of the same nine sums. -/
theorem min_snoc_shuffle (s1 s2 p q r u w z m k e : ℕ) :
    min (1 + min (1 + p) (min (1 + q) (s2 + r)))
      (min (1 + min (1 + u) (min (1 + w) (s2 + z)))
        (s1 + min (1 + m) (min (1 + k) (s2 + e)))) =
    min (1 + min (1 + p) (min (1 + u) (s1 + m)))
      (min (1 + min (1 + q) (min (1 + w) (s1 + k)))
        (s2 + min (1 + r) (min (1 + z) (s1 + e)))) := by
  simp only [← Nat.add_min_add_left]
  simp only [← Nat.add_assoc]
  simp only [min_assoc]
  rw [show s1 + s2 = s2 + s1 from Nat.add_comm s1 s2,
    show (1 : ℕ) + s2 = s2 + 1 from Nat.add_comm 1 s2,
    show (1 : ℕ) + s1 = s1 + 1 from Nat.add_comm 1 s1]
  simp only [min_comm, min_left_comm]

/-- The classic Levenshtein distance also satisfies the recurrence that peels
off the *last* characters of both lists — the recurrence the DP matrix of the
source uses. -/
theorem lev_snoc (x y : Char) :
    ∀ (n : ℕ) (xs ys : Str), xs.length + ys.length ≤ n →
      levenshtein dC (xs ++ [x]) (ys ++ [y]) =
        min (1 + levenshtein dC xs (ys ++ [y]))
          (min (1 + levenshtein dC (xs ++ [x]) ys)
            ((if x = y then 0 else 1) + levenshtein dC xs ys)) := by
  intro n
  induction n with
  | zero =>
    intro xs ys h
    match xs, ys with
    | [], [] =>
      simp only [List.nil_append, levenshtein_cons_cons, lev_nil_left, lev_nil_right,
        levenshtein_nil_nil, dC_delete, dC_insert, dC_substitute, List.length_cons,
        List.length_nil]
    | x' :: xs, _ => simp at h
    | [], y' :: ys => simp at h
  | succ n ih =>
    intro xs ys h
    match xs, ys with
    | [], [] =>
      simp only [List.nil_append, levenshtein_cons_cons, lev_nil_left, lev_nil_right,
        levenshtein_nil_nil, dC_delete, dC_insert, dC_substitute, List.length_cons,
        List.length_nil]
    | [], y' :: ys' =>
      have t1 := ih [] ys' (by simp at h ⊢; omega)
      simp only [List.nil_append] at t1 ⊢
      simp only [List.cons_append, levenshtein_cons_cons, dC_delete, dC_insert,
        dC_substitute] at t1 ⊢
      rw [t1]
      simp only [lev_nil_left, List.length_append, List.length_cons, List.length_nil]
      split_ifs <;> omega
    | x' :: xs', [] =>
      have t1 := ih xs' [] (by simp at h ⊢; omega)
      simp only [List.nil_append] at t1 ⊢
      simp only [List.cons_append, levenshtein_cons_cons, dC_delete, dC_insert,
        dC_substitute] at t1 ⊢
      rw [t1]
      simp only [lev_nil_right, List.length_append, List.length_cons, List.length_nil]
      split_ifs <;> omega
    | x' :: xs', y' :: ys' =>
      have t1 := ih xs' (y' :: ys') (by simp at h ⊢; omega)
      have t2 := ih (x' :: xs') ys' (by simp at h ⊢; omega)
      have t3 := ih xs' ys' (by simp at h ⊢; omega)
      simp only [List.cons_append] at t1 t2 t3 ⊢
      simp only [levenshtein_cons_cons, dC_delete, dC_insert, dC_substitute] at t1 t2 t3 ⊢
      rw [t1, t2, t3]
      exact min_snoc_shuffle _ _ _ _ _ _ _ _ _ _ _

/-- The classic Levenshtein distance is invariant under reversing both lists. -/
theorem lev_reverse :
    ∀ (n : ℕ) (xs ys : Str), xs.length + ys.length ≤ n →
      levenshtein dC xs.reverse ys.reverse = levenshtein dC xs ys := by
  intro n
  induction n with
  | zero =>
    intro xs ys h
    match xs, ys with
    | [], [] => rfl
    | x' :: xs, _ => simp at h
    | [], y' :: ys => simp at h
  | succ n ih =>
    intro xs ys h
    match xs, ys with
    | [], ys => simp [lev_nil_left]
    | x :: xs, [] => simp [lev_nil_right, levenshtein_cons_nil, dC_delete]; omega
    | x :: xs, y :: ys =>
      have t1 : levenshtein dC xs.reverse (ys.reverse ++ [y]) =
          levenshtein dC xs (y :: ys) := by
        have := ih xs (y :: ys) (by simp at h ⊢; omega)
        simpa using this
      have t2 : levenshtein dC (xs.reverse ++ [x]) ys.reverse =
          levenshtein dC (x :: xs) ys := by
        have := ih (x :: xs) ys (by simp at h ⊢; omega)
        simpa using this
      have t3 : levenshtein dC xs.reverse ys.reverse = levenshtein dC xs ys :=
        ih xs ys (by simp at h ⊢; omega)
      have hs := lev_snoc x y (xs.reverse.length + ys.reverse.length) xs.reverse ys.reverse
        (le_refl _)
      simp only [List.reverse_cons]
      rw [hs, t1, t2, t3, levenshtein_cons_cons]
      simp only [dC_delete, dC_insert, dC_substitute]

/-- The classic Levenshtein distance with unit costs is symmetric. -/
theorem lev_comm :
    ∀ (n : ℕ) (xs ys : Str), xs.length + ys.length ≤ n →
      levenshtein dC xs ys = levenshtein dC ys xs := by
  intro n
  induction n with
  | zero =>
    intro xs ys h
    match xs, ys with
    | [], [] => rfl
    | x' :: xs, _ => simp at h
    | [], y' :: ys => simp at h
  | succ n ih =>
    intro xs ys h
    match xs, ys with
    | [], ys => rw [lev_nil_left, lev_nil_right]
    | x :: xs, [] => rw [lev_nil_left, lev_nil_right]
    | x :: xs, y :: ys =>
      have t1 := ih xs (y :: ys) (by simp at h ⊢; omega)
      have t2 := ih (x :: xs) ys (by simp at h ⊢; omega)
      have t3 := ih xs ys (by simp at h ⊢; omega)
      simp only [levenshtein_cons_cons, dC_delete, dC_insert, dC_substitute]
      rw [t1, t2, t3]
      have hxy : (if x = y then (0 : ℕ) else 1) = if y = x then 0 else 1 := by
        rcases eq_or_ne x y with rfl | hne
        · simp
        · rw [if_neg hne, if_neg fun h => hne h.symm]
      rw [hxy]
      omega

/-- Distance from a list to itself is 0. -/
theorem lev_self (xs : Str) : levenshtein dC xs xs = 0 := by
  induction xs with
  | nil => simp
  | cons x xs ih =>
    simp [levenshtein_cons_cons, dC_delete, dC_insert, dC_substitute, ih, Nat.min_zero]

theorem cells_congr {f g : Nat → Nat} :
    ∀ {n s : Nat}, (∀ k, s ≤ k → k < s + n → f k = g k) → cells f s n = cells g s n := by
  intro n
  induction n with
  | zero => intro s _; rfl
  | succ n ih =>
    intro s h
    simp only [cells]
    refine congrArg₂ _ (h s le_rfl (by omega)) (ih fun k hk hk2 => h k (by omega) (by omega))

theorem cells_getLastD (f : Nat → Nat) :
    ∀ (n s d : Nat), (cells f s (n + 1)).getLastD d = f (s + n) := by
  intro n
  induction n with
  | zero => intro s d; simp [cells]
  | succ n ih =>
    intro s d
    have h1 := ih (s + 1) (f s)
    simp only [cells] at h1 ⊢
    rw [List.getLastD_cons, h1]
    congr 1
    omega

theorem cells_headD (f : Nat → Nat) (s n d : Nat) :
    (cells f s (n + 1)).headD d = f s := rfl

theorem range'_eq_cells : ∀ (n s : Nat), List.range' s n = cells (fun k => k) s n := by
  intro n
  induction n with
  | zero => intro s; rfl
  | succ n ih => intro s; simp only [List.range'_succ, cells, ih]

theorem range_eq_cells (n : Nat) : List.range n = cells (fun k => k) 0 n := by
  rw [List.range_eq_range', range'_eq_cells]

theorem levMat_zero_right (a b : Str) (i : Nat) : levMat a b i 0 = i := by
  cases i <;> simp [levMat]

/-- Helper: taking one more element appends the element read by `getD`. -/
theorem take_succ_getD (l : Str) (i : Nat) (h : i < l.length) :
    l.take (i + 1) = l.take i ++ [l.getD i ' '] := by
  rw [List.take_succ]
  congr 1
  rw [List.getElem?_eq_getElem h]
  rw [List.getD_eq_getElem?_getD, List.getElem?_eq_getElem h]
  rfl

/-- The DP matrix recurrence computes the classic Levenshtein distance between
the reversed prefixes. -/
theorem levMat_eq_levenshtein (a b : Str) :
    ∀ (n i j : Nat), i + j ≤ n → i ≤ b.length → j ≤ a.length →
      levMat a b i j = levenshtein dC ((b.take i).reverse) ((a.take j).reverse) := by
  intro n
  induction n with
  | zero =>
    intro i j h hi hj
    match i, j with
    | 0, 0 => simp [levMat]
    | i + 1, j => omega
    | 0, j + 1 => omega
  | succ n ih =>
    intro i j h hi hj
    match i, j with
    | 0, j =>
      simp only [List.take_zero, List.reverse_nil, lev_nil_left, levMat,
        List.length_reverse, List.length_take]
      omega
    | i + 1, 0 =>
      simp only [List.take_zero, List.reverse_nil, lev_nil_right, levMat,
        List.length_reverse, List.length_take]
      omega
    | i + 1, j + 1 =>
      have hbi : i < b.length := by omega
      have haj : j < a.length := by omega
      have e1 := ih i j (by omega) (by omega) (by omega)
      have e2 := ih (i + 1) j (by omega) (by omega) (by omega)
      have e3 := ih i (j + 1) (by omega) (by omega) (by omega)
      rw [take_succ_getD b i hbi] at e2
      rw [take_succ_getD a j haj] at e3
      simp only [List.reverse_append, List.reverse_cons, List.reverse_nil, List.nil_append,
        List.singleton_append] at e2 e3
      rw [take_succ_getD b i hbi, take_succ_getD a j haj]
      simp only [List.reverse_append, List.reverse_cons, List.reverse_nil, List.nil_append,
        List.singleton_append]
      rw [levenshtein_cons_cons]
      simp only [dC_delete, dC_insert, dC_substitute]
      rw [← e1, ← e2, ← e3]
      have b1 : levMat a b i j ≤ 1 + levMat a b i (j + 1) := by
        rw [e1, e3]
        exact lev_le_cons_right _ _ _ _ le_rfl
      have b2 : levMat a b i j ≤ 1 + levMat a b (i + 1) j := by
        rw [e1, e2]
        exact lev_le_cons_left _ _ _ _ le_rfl
      conv_lhs => rw [levMat]
      split_ifs <;> omega

/-- Correctness of the inner loop of the source's row computation: from row `i`
of the DP matrix it produces the tail of row `i + 1`. -/
theorem levRowGo_spec (a b : Str) (i : Nat) :
    ∀ (rest : Str) (j cur : Nat), rest = a.drop j → j ≤ a.length →
      cur = levMat a b (i + 1) j →
      levRowGo (b.getD i ' ') rest (cells (levMat a b i) j (a.length + 1 - j)) cur =
        cells (levMat a b (i + 1)) (j + 1) (a.length - j) := by
  intro rest
  induction rest with
  | nil =>
    intro j cur hrest hj hcur
    have hlen : a.length ≤ j := List.drop_eq_nil_iff.mp hrest.symm
    have hj' : j = a.length := by omega
    subst hj'
    simp [levRowGo, cells, Nat.sub_self]
  | cons c cs ih =>
    intro j cur hrest hj hcur
    have hjlt : j < a.length := by
      by_contra hge
      rw [List.drop_eq_nil_of_le (by omega)] at hrest
      exact List.noConfusion hrest
    have hdrop : a.drop j = a.getD j ' ' :: a.drop (j + 1) := by
      rw [List.getD_eq_getElem?_getD, List.getElem?_eq_getElem hjlt]
      exact List.drop_eq_getElem_cons hjlt
    rw [hdrop] at hrest
    have hc : c = a.getD j ' ' := (List.cons.injEq _ _ _ _ ▸ hrest).1
    have hcs : cs = a.drop (j + 1) := (List.cons.injEq _ _ _ _ ▸ hrest).2
    have hn1 : a.length + 1 - j = (a.length - j) + 1 := by omega
    have hn2 : a.length - j = (a.length - (j + 1)) + 1 := by omega
    rw [hn1]
    simp only [cells]
    rw [levRowGo]
    have hhead : (cells (levMat a b i) (j + 1) (a.length - j)).headD 0 =
        levMat a b i (j + 1) := by
      rw [hn2, cells_headD]
    rw [hhead, hc]
    have hv : (if b.getD i ' ' = a.getD j ' ' then levMat a b i j
        else min (levMat a b i j + 1)
          (min (cur + 1) (levMat a b i (j + 1) + 1))) = levMat a b (i + 1) (j + 1) := by
      rw [hcur]
      conv_rhs => rw [levMat]
    rw [hv]
    have hrec := ih (j + 1) (levMat a b (i + 1) (j + 1)) hcs (by omega) rfl
    have hm : a.length + 1 - (j + 1) = a.length - j := by omega
    rw [hm] at hrec
    rw [hrec, hn2]
    simp only [cells]

/-- Correctness of the row fold of `levenshteinDistance`: starting from row
`k` of the DP matrix, folding the remaining characters of `b` yields the last
row. -/
theorem levFold_spec (a b : Str) :
    ∀ (rest : Str) (k : Nat), rest = b.drop k → k ≤ b.length →
      rest.foldl
        (fun prev bc => (prev.headD 0 + 1) :: levRowGo bc a prev (prev.headD 0 + 1))
        (cells (levMat a b k) 0 (a.length + 1)) =
      cells (levMat a b b.length) 0 (a.length + 1) := by
  intro rest
  induction rest with
  | nil =>
    intro k hrest hk
    have hlen : b.length ≤ k := List.drop_eq_nil_iff.mp hrest.symm
    have hk' : k = b.length := by omega
    subst hk'
    rfl
  | cons bc rest ih =>
    intro k hrest hk
    have hklt : k < b.length := by
      by_contra hge
      rw [List.drop_eq_nil_of_le (by omega)] at hrest
      exact List.noConfusion hrest
    have hdrop : b.drop k = b.getD k ' ' :: b.drop (k + 1) := by
      rw [List.getD_eq_getElem?_getD, List.getElem?_eq_getElem hklt]
      exact List.drop_eq_getElem_cons hklt
    rw [hdrop] at hrest
    have hbc : bc = b.getD k ' ' := (List.cons.injEq _ _ _ _ ▸ hrest).1
    have hbs : rest = b.drop (k + 1) := (List.cons.injEq _ _ _ _ ▸ hrest).2
    rw [List.foldl_cons]
    have hfirst : (cells (levMat a b k) 0 (a.length + 1)).headD 0 + 1 =
        levMat a b (k + 1) 0 := by
      rw [cells_headD, levMat_zero_right, levMat_zero_right]
    have hrow := levRowGo_spec a b k a 0 (levMat a b (k + 1) 0) rfl (by omega) rfl
    simp only [Nat.sub_zero, Nat.zero_add] at hrow
    rw [hbc, hfirst, hrow]
    show List.foldl _ (cells (levMat a b (k + 1)) 0 (a.length + 1)) rest = _
    exact ih (k + 1) hbs (by omega)

/-- The source's `levenshteinDistance` computes the classic Levenshtein
distance with unit costs. -/
theorem levenshteinDistance_eq_levenshtein (a b : Str) :
    levenshteinDistance a b = levenshtein dC a b := by
  have h0 : List.range (a.length + 1) = cells (levMat a b 0) 0 (a.length + 1) := by
    rw [range_eq_cells]
    exact cells_congr fun k _ _ => by simp [levMat]
  have hdef : levenshteinDistance a b =
      (b.foldl
        (fun prev bc => (prev.headD 0 + 1) :: levRowGo bc a prev (prev.headD 0 + 1))
        (List.range (a.length + 1))).getLastD 0 := rfl
  rw [hdef, h0, levFold_spec a b b 0 (by simp) (by omega), cells_getLastD]
  simp only [Nat.zero_add]
  rw [levMat_eq_levenshtein a b (b.length + a.length) b.length a.length le_rfl le_rfl le_rfl]
  rw [List.take_length, List.take_length]
  rw [lev_reverse (b.length + a.length) b a le_rfl]
  exact lev_comm (b.length + a.length) b a le_rfl

/-!
## Data model

`JsNum` models a JavaScript number: `none` is NaN (the only non-finite value
reachable in this code), `some q` a finite value.  JS fields that may be
absent (`undefined`/`null`) are `Option`s; all-JS-strings are `Str`.
-/

/-- JavaScript number: `none` = NaN. -/
abbrev JsNum := Option ℚ

def jsAdd : JsNum → JsNum → JsNum
  | some a, some b => some (a + b)
  | _, _ => none

def jsMul : JsNum → JsNum → JsNum
  | some a, some b => some (a * b)
  | _, _ => none

def jsSub : JsNum → JsNum → JsNum
  | some a, some b => some (a - b)
  | _, _ => none

/-- JS division of the natural `n` by the natural `m` as used in the ratio
terms of `calculateProfileSimilarity`: `m = 0` forces `n = 0` there, and JS
`0/0` is NaN. -/
def jsDivNat (n m : Nat) : JsNum :=
  if m = 0 then none else some ((n : ℚ) / (m : ℚ))

/-- Truthiness of an optional JS string: absent and `""` are falsy. -/
def jsTruthyStr : Option Str → Bool
  | some s => !s.isEmpty
  | none => false

/-- A raw member record as fetched (all optional, § RawProfile). -/
structure RawProfile where
  username : Str
  name : Option Str := none
  location : Option Str := none
  professional_summary : Option Str := none
  personal_summary : Option Str := none
  philosophical_summary : Option Str := none
  tags : Option (List Str) := none
  x_url : Option Str := none
  linkedin_url : Option Str := none
  discord_handle : Option Str := none
  post_date : Option Int := none
deriving DecidableEq

/-- Structured social links (data-loader.js `processSocialLinks`). -/
structure SocialLinks where
  twitter : Option Str := none
  linkedin : Option Str := none
  discord : Option Str := none
deriving DecidableEq

/-- A processed member record (data-loader.js `processData`).  The
`relevanceScore` / `similarityScore` fields model the extra properties
attached by `{ ...member, relevanceScore }` spreads; `none` = field absent. -/
structure Profile where
  username : Str
  name : Str := []
  location : Str := []
  professional_summary : Str := []
  personal_summary : Str := []
  philosophical_summary : Str := []
  tags : Option (List Str) := none
  professional_keywords : Option (List Str) := none
  location_normalized : Option Str := none
  has_location : Bool := false
  has_professional_summary : Bool := false
  has_personal_summary : Bool := false
  has_social_links : Bool := false
  searchable_text : Str := []
  social_links : SocialLinks := {}
  post_date : Option Int := none
  relevanceScore : Option Nat := none
  similarityScore : Option JsNum := none
deriving DecidableEq

/-!
## Data loader (data-loader.js)
-/

/-- First replacement of `cleanText`: the two-character sequence `\\n`
becomes a space (regex `/\\n/g`, global, left to right). -/
def replaceBackslashN : Str → Str
  | '\\' :: 'n' :: rest => ' ' :: replaceBackslashN rest
  | c :: rest => c :: replaceBackslashN rest
  | [] => []

/-- Second replacement of `cleanText` (and of `processSocialLinks`): the
two-character sequence `\\/` becomes `/` (regex `/\\\//g`). -/
def replaceEscSlash : Str → Str
  | '\\' :: '/' :: rest => '/' :: replaceEscSlash rest
  | c :: rest => c :: replaceEscSlash rest
  | [] => []

/-- Third replacement of `cleanText`: each maximal whitespace run becomes a
single space (regex `/\s+/g`). -/
def collapseWsAux : Bool → Str → Str
  | _, [] => []
  | prevWs, c :: rest =>
    if isWsChar c then
      if prevWs then collapseWsAux true rest else ' ' :: collapseWsAux true rest
    else c :: collapseWsAux false rest

/-- Third replacement of `cleanText`, entry point: the Boolean flag records
whether the previous character was whitespace, so each maximal run of
whitespace emits exactly one space. -/
def collapseWs (s : Str) : Str := collapseWsAux false s

/-- `cleanText` from the source: falsy input gives `""`; otherwise unescape
`\\n` and `\\/`, collapse whitespace runs, trim. -/
def cleanText (t : Option Str) : Str :=
  match t with
  | none => []
  | some s => if s = [] then [] else jsTrim (collapseWs (replaceEscSlash (replaceBackslashN s)))

/-- A regex token of the keyword patterns: a literal character, or `\s+`. -/
inductive PatTok where
  | lit : Char → PatTok
  | ws : PatTok
deriving DecidableEq

/-- A plain-word alternative (no `\s+`). -/
def litPat (s : Str) : List PatTok := s.map PatTok.lit

/-- Words joined by `\s+`. -/
def wsPat (parts : List Str) : List PatTok := List.intercalate [PatTok.ws] (parts.map litPat)

/-- Characters matched by regex `\w` (for `\b` boundaries). -/
def isWordChar (c : Char) : Bool := c.isAlphanum || c == '_'

/-- Match a token sequence at the beginning of `s`; returns the remaining
suffix.  `\s+` consumes maximally (no alternative following it can start with
whitespace, so greedy matching is exact here). -/
def matchToks : List PatTok → Str → Option Str
  | [], s => some s
  | PatTok.lit c :: ps, d :: rest => if d = c then matchToks ps rest else none
  | PatTok.lit _ :: _, [] => none
  | PatTok.ws :: ps, s =>
    if (s.takeWhile isWsChar).isEmpty then none else matchToks ps (s.dropWhile isWsChar)

/-- Try the alternatives of an alternation in order at the current position,
requiring a word boundary after the match (`\b` at the pattern end). -/
def tryAlts (alts : List (List PatTok)) (s : Str) : Option (Str × Str) :=
  alts.findSome? fun alt =>
    match matchToks alt s with
    | some rest =>
      match rest with
      | [] => some (s.take (s.length - rest.length), rest)
      | r :: _ =>
        if isWordChar r then none else some (s.take (s.length - rest.length), rest)
    | none => none

/-- Scan the text for all matches of `/\b(alt₁|alt₂|…)\b/g`, left to right,
non-overlapping.  `prev` is the character before the current position (for the
leading `\b`); the fuel is at least the remaining length, so it never runs
out. -/
def scanPat (alts : List (List PatTok)) : Nat → Str → Option Char → List Str
  | 0, _, _ => []
  | _ + 1, [], _ => []
  | fuel + 1, s@(c :: rest), prev =>
    let boundary := match prev with
      | none => true
      | some p => !isWordChar p
    match (if boundary && isWordChar c then tryAlts alts s else none) with
    | some (m, rest') => m :: scanPat alts fuel rest' (some (m.getLastD ' '))
    | none => scanPat alts fuel rest (some c)

/-- Remove duplicates keeping first occurrences, helper: `seen` holds the
values already emitted. -/
def dedupFirstAux (seen : List Str) : List Str → List Str
  | [] => []
  | x :: xs =>
    if x ∈ seen then dedupFirstAux seen xs else x :: dedupFirstAux (x :: seen) xs

/-- Remove duplicates keeping first occurrences (`[...new Set(l)]`). -/
def dedupFirst (l : List Str) : List Str := dedupFirstAux [] l

/-- The three fixed keyword patterns of `extractKeywords`. -/
def keywordPattern1 : List (List PatTok) :=
  [litPat (str "developer"), litPat (str "engineer"), litPat (str "designer"),
   litPat (str "product"), litPat (str "manager"), litPat (str "founder"),
   litPat (str "ceo"), litPat (str "cto"), litPat (str "blockchain"),
   litPat (str "web3"), litPat (str "ai"), litPat (str "machine learning"),
   litPat (str "data"), litPat (str "frontend"), litPat (str "backend"),
   litPat (str "fullstack"), litPat (str "startup"), litPat (str "entrepreneur")]

def keywordPattern2 : List (List PatTok) :=
  [litPat (str "react"), litPat (str "javascript"), litPat (str "python"),
   litPat (str "solana"), litPat (str "ethereum"), litPat (str "bitcoin"),
   litPat (str "defi"), litPat (str "nft"), litPat (str "crypto")]

def keywordPattern3 : List (List PatTok) :=
  [wsPat [str "years", str "of", str "experience"],
   wsPat [str "year", str "of", str "experience"],
   wsPat [str "experience", str "in"],
   wsPat [str "worked", str "at"],
   wsPat [str "working", str "at"]]

/-- `extractKeywords` from the source: all matches of the three patterns over
the lowercased summary, concatenated, deduplicated. -/
def extractKeywords (ps : Option Str) : List Str :=
  match ps with
  | none => []
  | some s =>
    if s = [] then []
    else
      let text := toLowerStr s
      dedupFirst
        (scanPat keywordPattern1 (text.length + 1) text none ++
         scanPat keywordPattern2 (text.length + 1) text none ++
         scanPat keywordPattern3 (text.length + 1) text none)

/-- The fixed alias table of `normalizeLocation`. -/
def aliasLookup (s : Str) : Option Str :=
  if s = str "sf" then some (str "san francisco")
  else if s = str "bay area" then some (str "san francisco")
  else if s = str "silicon valley" then some (str "san francisco")
  else if s = str "nyc" then some (str "new york")
  else if s = str "new york city" then some (str "new york")
  else if s = str "la" then some (str "los angeles")
  else if s = str "sg" then some (str "singapore")
  else if s = str "uk" then some (str "united kingdom")
  else if s = str "usa" then some (str "united states")
  else if s = str "us" then some (str "united states")
  else none

/-- `normalizeLocation` from the source: falsy input (absent or `""`) gives
null; otherwise lowercase, trim, alias-map (unmapped values pass through —
including the empty string produced by a whitespace-only location). -/
def normalizeLocation (loc : Option Str) : Option Str :=
  match loc with
  | none => none
  | some l =>
    if l = [] then none
    else
      let normalized := jsTrim (toLowerStr l)
      some (match aliasLookup normalized with
            | some v => v
            | none => normalized)

/-- `createSearchableText` from the source: truthy fields of the *raw* member
joined by spaces, lowercased. -/
def createSearchableText (m : RawProfile) : Str :=
  let fields : List (Option Str) :=
    [m.name, some m.username, m.location, m.professional_summary,
     m.personal_summary, m.philosophical_summary] ++ (m.tags.getD []).map some
  toLowerStr
    (List.intercalate [' ']
      (fields.filterMap fun f =>
        match f with
        | some s => if s = [] then none else some s
        | none => none))

/-- `processSocialLinks` from the source. -/
def processSocialLinks (m : RawProfile) : SocialLinks where
  twitter := match m.x_url with
    | some s => if s = [] then none else some (replaceEscSlash s)
    | none => none
  linkedin := match m.linkedin_url with
    | some s => if s = [] then none else some (replaceEscSlash s)
    | none => none
  discord := match m.discord_handle with
    | some s => if s = [] then none else some s
    | none => none

/-- One step of `processData`: the enriched record for one raw member. -/
def normalizeMember (m : RawProfile) : Profile where
  username := m.username
  name := cleanText m.name
  location := cleanText m.location
  professional_summary := cleanText m.professional_summary
  personal_summary := cleanText m.personal_summary
  philosophical_summary := cleanText m.philosophical_summary
  tags := some (m.tags.getD [])
  professional_keywords := some (extractKeywords m.professional_summary)
  location_normalized := normalizeLocation m.location
  has_location := jsTruthyStr m.location
  has_professional_summary := jsTruthyStr m.professional_summary
  has_personal_summary := jsTruthyStr m.personal_summary
  has_social_links :=
    jsTruthyStr m.x_url || jsTruthyStr m.linkedin_url || jsTruthyStr m.discord_handle
  searchable_text := createSearchableText m
  social_links := processSocialLinks m
  post_date := m.post_date

/-- `processData` from the source. -/
def processData (rawData : List RawProfile) : List Profile :=
  rawData.map normalizeMember

/-!
## Search engine (search-engine.js `SearchEngine`)
-/

/-- The engine's `activeFilters` record. -/
structure Filters where
  search : Str := []
  location : Str := []
  profession : Str := []
  cohort : Str := []
  tags : List Str := []
deriving DecidableEq

/-- A partial filter object passed to `search`: spread `{ ...old, ...new }`
overwrites exactly the fields present in the argument. -/
structure PartialFilters where
  search : Option Str := none
  location : Option Str := none
  profession : Option Str := none
  cohort : Option Str := none
  tags : Option (List Str) := none
deriving DecidableEq

/-- `{ ...this.activeFilters, ...filters }`. -/
def mergeFilters (f : Filters) (p : PartialFilters) : Filters where
  search := p.search.getD f.search
  location := p.location.getD f.location
  profession := p.profession.getD f.profession
  cohort := p.cohort.getD f.cohort
  tags := p.tags.getD f.tags

/-- The `activeFilters` value set by the constructor (the cleared state). -/
def initialFilters : Filters := {}

/-- The mutable state of a `SearchEngine` together with its data loader's
`processedData` (`none` = no data loaded). -/
structure EngineState where
  processedData : Option (List Profile) := none
  activeFilters : Filters := initialFilters
  currentResults : List Profile := []
deriving DecidableEq

/-- A fresh engine over the given processed data. -/
def mkEngine (pd : Option (List Profile)) : EngineState := { processedData := pd }

/-- The per-term body of `calculateRelevanceScore`'s `forEach`. -/
def relevanceStep (m : Profile) (score : Nat) (term : Str) : Nat :=
  let score := if !m.name.isEmpty && jsIncludes (toLowerStr m.name) term
    then score + 10 else score
  let score :=
    if !m.professional_summary.isEmpty &&
        jsIncludes (toLowerStr m.professional_summary) term
    then score + 5 else score
  let score := match m.tags with
    | some tags =>
      if tags.any (fun tag => jsIncludes (toLowerStr tag) term) then score + 5 else score
    | none => score
  let score := if !m.personal_summary.isEmpty &&
        jsIncludes (toLowerStr m.personal_summary) term
    then score + 2 else score
  if !m.location.isEmpty && jsIncludes (toLowerStr m.location) term
    then score + 3 else score

/-- `calculateRelevanceScore` from the source. -/
def calculateRelevanceScore (m : Profile) (searchTerms : List Str) : Nat :=
  searchTerms.foldl (relevanceStep m) 0

/-- The lowercased terms of a text search:
`searchTerm.toLowerCase().split(' ').filter(term => term.length > 0)`. -/
def termsOf (searchTerm : Str) : List Str :=
  (splitOnSpace (toLowerStr searchTerm)).filter fun t => t.length > 0

/-- The per-member predicate of `applyTextSearch`: every term is a literal
substring of `searchable_text` or fuzzy-matches it. -/
def textMatchB (searchTerm : Str) (m : Profile) : Bool :=
  (termsOf searchTerm).all fun term =>
    jsIncludes m.searchable_text term || fuzzyMatch m.searchable_text term

/-- `{ ...member, relevanceScore }`. -/
def augment (searchTerm : Str) (m : Profile) : Profile :=
  { m with relevanceScore := some (calculateRelevanceScore m (termsOf searchTerm)) }

/-- `applyTextSearch` from the source: keep members for which every term is a
literal substring of `searchable_text` or fuzzy-matches it, and attach a
relevance score to each survivor. -/
def applyTextSearch (data : List Profile) (searchTerm : Str) : List Profile :=
  if (jsTrim searchTerm).isEmpty then data
  else (data.filter (textMatchB searchTerm)).map (augment searchTerm)

/-- The location-stage predicate of `search`:
`member.location_normalized === activeFilters.location`. -/
def locP (f : Filters) (m : Profile) : Bool :=
  decide (m.location_normalized = some f.location)

/-- The profession-stage predicate of `search`. -/
def profP (f : Filters) (m : Profile) : Bool :=
  !m.professional_summary.isEmpty &&
    jsIncludes (toLowerStr m.professional_summary) (toLowerStr f.profession)

/-- The tags-stage predicate of `search`. -/
def tagP (f : Filters) (m : Profile) : Bool :=
  m.tags.isSome &&
    f.tags.any fun tag =>
      (m.tags.getD []).any fun mtag => jsIncludes (toLowerStr mtag) (toLowerStr tag)

/-- The filtering pipeline of `search` (its body after the merge, applied to
the processed collection): text, location, profession and tags stages in
order. -/
def applyFilters (f : Filters) (data : List Profile) : List Profile :=
  let r1 := if !f.search.isEmpty then applyTextSearch data f.search else data
  let r2 := if !f.location.isEmpty then r1.filter (locP f) else r1
  let r3 := if !f.profession.isEmpty then r2.filter (profP f) else r2
  let r4 := if f.tags.length > 0 then r3.filter (tagP f) else r3
  r4

/-- `search` from the source: merge the partial filters into the held state,
then apply the text, location, profession and tags stages in order.  Returns
the result list and the updated engine state. -/
def search (s : EngineState) (p : PartialFilters) : List Profile × EngineState :=
  match s.processedData with
  | none => ([], s)
  | some data =>
    let f := mergeFilters s.activeFilters p
    let results := applyFilters f data
    (results, { s with activeFilters := f, currentResults := results })

/-- `calculateProfileSimilarity` from the source.  The two ratio terms are
guarded only by the *presence* of the tag/keyword fields; present but empty
lists on both sides produce JS `0/0 = NaN` (`none`). -/
def calculateProfileSimilarity (m1 m2 : Profile) : JsNum :=
  let score : JsNum := some 0
  let score := if m1.location_normalized = m2.location_normalized
    then jsAdd score (some (3 / 10)) else score
  let score := match m1.tags, m2.tags with
    | some t1, some t2 =>
      let commonTags := t1.filter fun tag =>
        t2.any fun tag2 => decide (toLowerStr tag2 = toLowerStr tag)
      jsAdd score
        (jsMul (jsDivNat commonTags.length (max t1.length t2.length)) (some (4 / 10)))
    | _, _ => score
  match m1.professional_keywords, m2.professional_keywords with
  | some k1, some k2 =>
    let commonKeywords := k1.filter fun kw => decide (kw ∈ k2)
    jsAdd score
      (jsMul (jsDivNat commonKeywords.length (max k1.length k2.length)) (some (1 / 10)))
  | _, _ => score

/-- Stable insertion into a sorted prefix: the new element goes after every
element `y` with `r y x` ("`y` may stay before `x`"). -/
def insertR (r : α → α → Bool) (x : α) : List α → List α
  | [] => [x]
  | y :: ys => if r y x then y :: insertR r x ys else x :: y :: ys

/-- A stable sort with a JS-style comparator relation: `r y x` holds when the
comparator keeps `y` before (or tied with) `x`.  Models `Array.prototype.sort`
(ES requires a stable sort consistent with the comparator). -/
def jsSortBy (r : α → α → Bool) (l : List α) : List α :=
  l.foldl (fun acc x => insertR r x acc) []

/-- The similarity score read by the sort comparator; an absent field is JS
`undefined`, and arithmetic on it yields NaN. -/
def simScoreOf (m : Profile) : JsNum := m.similarityScore.getD none

/-- Comparator relation of `findSimilarMembers`'s sort:
`(a, b) => b.similarityScore - a.similarityScore`, where a NaN comparator
value is treated as 0 by ES `SortCompare` (elements tie). -/
def simBefore (m1 m2 : Profile) : Bool :=
  match jsSub (simScoreOf m2) (simScoreOf m1) with
  | none => true
  | some d => decide (d ≤ 0)

/-- `findSimilarMembers` from the source. -/
def findSimilarMembers (pd : Option (List Profile)) (targetMember : Option Profile)
    (count : Nat) : List Profile :=
  match targetMember, pd with
  | some t, some data =>
    (jsSortBy simBefore
        ((data.filter fun m => !decide (m.username = t.username)).map fun m =>
          { m with similarityScore := some (calculateProfileSimilarity t m) })).take
      count
  | _, _ => []

/-- Code-unit comparison of strings: `strLe a b` iff
`a.localeCompare(b) ≤ 0` in the code-point order model. -/
def strLe : Str → Str → Bool
  | [], _ => true
  | _ :: _, [] => false
  | c :: cs, d :: ds => if c = d then strLe cs ds else decide (c < d)

/-- Comparator relation for `sortResults('name')`. -/
def nameBefore (m1 m2 : Profile) : Bool := strLe m1.name m2.name

/-- Comparator relation for `sortResults('recent')`:
`(a, b) => (b.post_date || 0) - (a.post_date || 0)` (descending). -/
def recentBefore (m1 m2 : Profile) : Bool :=
  decide (m2.post_date.getD 0 ≤ m1.post_date.getD 0)

/-- `sortResults` from the source: sorts a copy (`[...results]`) by the chosen
criterion; unknown criteria fall back to the name sort. -/
def sortResults (results : List Profile) (sortBy : Str) : List Profile :=
  if sortBy = str "name" then jsSortBy nameBefore results
  else if sortBy = str "recent" then jsSortBy recentBefore results
  else jsSortBy nameBefore results

/-- Increment the count of `tag` in an insertion-ordered counts map
(`tagCounts[tag] = (tagCounts[tag] || 0) + 1`). -/
def bumpCount (acc : List (Str × Nat)) (tag : Str) : List (Str × Nat) :=
  if acc.any fun q => decide (q.1 = tag) then
    acc.map fun q => if q.1 = tag then (q.1, q.2 + 1) else q
  else acc ++ [(tag, 1)]

/-- `getTrendingTags` from the source: count tags across the collection, sort
descending by count, truncate.  (`Object.entries` enumerates the counts in
insertion order here.) -/
def getTrendingTags (pd : Option (List Profile)) (limit : Nat) : List (Str × Nat) :=
  match pd with
  | none => []
  | some data =>
    let tagCounts := data.foldl
      (fun acc m =>
        match m.tags with
        | some tags => tags.foldl bumpCount acc
        | none => acc)
      []
    (jsSortBy (fun q1 q2 => decide (q2.2 ≤ q1.2)) tagCounts).take limit

/-- The filter-option lists of `getFilterOptions`. -/
structure FilterOptions where
  locations : List Str
  tags : List Str
  professions : List Str
deriving DecidableEq

/-- The fixed profession patterns of `extractProfessions`. -/
def professionPatterns : List Str :=
  [str "developer", str "engineer", str "designer", str "product manager",
   str "founder", str "ceo", str "cto", str "entrepreneur", str "consultant",
   str "data scientist", str "researcher", str "analyst", str "marketer",
   str "blockchain", str "web3", str "ai", str "machine learning"]

/-- `extractProfessions` from the source. -/
def extractProfessions (data : List Profile) : List Str :=
  let counts := data.foldl
    (fun acc m =>
      if !m.professional_summary.isEmpty then
        let summary := toLowerStr m.professional_summary
        professionPatterns.foldl
          (fun acc2 pat => if jsIncludes summary pat then bumpCount acc2 pat else acc2)
          acc
      else acc)
    []
  ((jsSortBy (fun q1 q2 => decide (q2.2 ≤ q1.2)) counts).take 20).map fun q => q.1

/-- `getFilterOptions` from the source: null when no data; otherwise the
sorted deduplicated truthy normalized locations, the sorted deduplicated
truthy tags, and the top profession keywords. -/
def getFilterOptions (pd : Option (List Profile)) : Option FilterOptions :=
  match pd with
  | none => none
  | some data =>
    some
      { locations := jsSortBy strLe
          (dedupFirst
            ((data.map fun m => m.location_normalized).filterMap fun l =>
              match l with
              | some s => if s = [] then none else some s
              | none => none))
        tags := jsSortBy strLe
          (dedupFirst
            (((data.map fun m => m.tags.getD []).flatten).filter fun t => !t.isEmpty))
        professions := extractProfessions data }

/-!
## Support lemmas about the pipeline and the sort
-/

/-- The overall pass predicate of the `search` pipeline: a member survives all
four stages iff it passes every active filter. -/
def passB (f : Filters) (m : Profile) : Bool :=
  (f.search.isEmpty || (jsTrim f.search).isEmpty || textMatchB f.search m) &&
    ((f.location.isEmpty || locP f m) &&
      ((f.profession.isEmpty || profP f m) &&
        (!decide (f.tags.length > 0) || tagP f m)))

theorem condFilter_eq {α : Type} (c : Bool) (p : α → Bool) (l : List α) :
    (if c then l.filter p else l) = l.filter fun a => !c || p a := by
  cases c with
  | true => simp
  | false => simp

theorem condFilterP_eq {α : Type} (c : Prop) [Decidable c] (p : α → Bool) (l : List α) :
    (if c then l.filter p else l) = l.filter fun a => !decide c || p a := by
  split <;> simp_all

theorem username_augment (s : Str) (m : Profile) :
    (augment s m).username = m.username := rfl

theorem locP_augment (f : Filters) (s : Str) (m : Profile) :
    locP f (augment s m) = locP f m := rfl

theorem profP_augment (f : Filters) (s : Str) (m : Profile) :
    profP f (augment s m) = profP f m := rfl

theorem tagP_augment (f : Filters) (s : Str) (m : Profile) :
    tagP f (augment s m) = tagP f m := rfl

/-- The usernames surviving the pipeline are exactly those of the members
satisfying `passB` — in the original order. -/
theorem applyFilters_usernames (f : Filters) (data : List Profile) :
    (applyFilters f data).map (fun m => m.username) =
      (data.filter (passB f)).map (fun m => m.username) := by
  simp only [applyFilters, applyTextSearch]
  rw [condFilterP_eq, condFilter_eq, condFilter_eq]
  by_cases h1 : f.search.isEmpty
  · rw [if_neg (by simp [h1])]
    rw [List.filter_filter, List.filter_filter]
    refine congrArg _ (List.filter_congr fun m _ => ?_)
    simp only [passB, h1]
    cases locP f m <;> cases profP f m <;> cases tagP f m <;>
      cases f.location.isEmpty <;> cases f.profession.isEmpty <;>
      cases decide (f.tags.length > 0) <;> rfl
  · by_cases h2 : (jsTrim f.search).isEmpty
    · rw [if_pos (by simp [h1]), if_pos h2]
      rw [List.filter_filter, List.filter_filter]
      refine congrArg _ (List.filter_congr fun m _ => ?_)
      simp only [passB, Bool.not_eq_true] at *
      simp only [h1, h2]
      cases locP f m <;> cases profP f m <;> cases tagP f m <;>
        cases f.location.isEmpty <;> cases f.profession.isEmpty <;>
        cases decide (f.tags.length > 0) <;> rfl
    · rw [if_pos (by simp [h1]), if_neg h2]
      rw [List.filter_map, List.filter_map, List.filter_map, List.map_map]
      rw [show ((fun m : Profile => m.username) ∘ augment f.search) =
        (fun m : Profile => m.username) from rfl]
      rw [List.filter_filter, List.filter_filter, List.filter_filter]
      refine congrArg _ (List.filter_congr fun m _ => ?_)
      simp only [passB, Function.comp, locP_augment, profP_augment, tagP_augment,
        Bool.not_eq_true] at *
      simp only [h1, h2]
      cases textMatchB f.search m <;>
        cases locP f m <;> cases profP f m <;> cases tagP f m <;>
        cases f.location.isEmpty <;> cases f.profession.isEmpty <;>
        cases decide (f.tags.length > 0) <;> rfl

/-- Filtering with a stronger predicate yields at most as many elements. -/
theorem length_filter_mono {α : Type} (p q : α → Bool) (l : List α)
    (h : ∀ a, p a = true → q a = true) :
    (l.filter p).length ≤ (l.filter q).length := by
  induction l with
  | nil => simp
  | cons a l ih =>
    by_cases hp : p a = true
    · rw [List.filter_cons_of_pos hp, List.filter_cons_of_pos (h a hp)]
      simpa using ih
    · rw [List.filter_cons_of_neg (by simpa using hp)]
      by_cases hq : q a = true
      · rw [List.filter_cons_of_pos hq]
        exact ih.trans (Nat.le_succ _)
      · rw [List.filter_cons_of_neg (by simpa using hq)]
        exact ih

theorem insertR_perm {α : Type} (r : α → α → Bool) (x : α) (l : List α) :
    (insertR r x l).Perm (x :: l) := by
  induction l with
  | nil => exact List.Perm.refl _
  | cons y ys ih =>
    unfold insertR
    split
    · exact ((ih.cons y).trans (List.Perm.swap x y ys)).symm.symm
    · exact List.Perm.refl _

theorem jsSortBy_perm {α : Type} (r : α → α → Bool) (l : List α) :
    (jsSortBy r l).Perm l := by
  suffices h : ∀ (acc : List α), (l.foldl (fun acc x => insertR r x acc) acc).Perm (acc ++ l) by
    simpa using h []
  induction l with
  | nil => intro acc; simp
  | cons x xs ih =>
    intro acc
    rw [List.foldl_cons]
    refine (ih (insertR r x acc)).trans ?_
    have h1 : (insertR r x acc ++ xs).Perm ((x :: acc) ++ xs) :=
      (insertR_perm r x acc).append_right xs
    refine h1.trans ?_
    simp only [List.cons_append]
    exact List.perm_middle.symm

theorem mem_insertR {α : Type} (r : α → α → Bool) (x a : α) (l : List α) :
    a ∈ insertR r x l ↔ a = x ∨ a ∈ l := by
  induction l with
  | nil => simp [insertR]
  | cons y ys ih =>
    unfold insertR
    split
    · rw [List.mem_cons, ih, List.mem_cons]
      tauto
    · exact List.mem_cons

theorem mem_jsSortBy {α : Type} (r : α → α → Bool) (l : List α) (a : α) :
    a ∈ jsSortBy r l ↔ a ∈ l :=
  (jsSortBy_perm r l).mem_iff

theorem mem_dedupFirstAux (a : Str) :
    ∀ (l seen : List Str), a ∈ dedupFirstAux seen l → a ∈ l := by
  intro l
  induction l with
  | nil => intro seen h; simp [dedupFirstAux] at h
  | cons x xs ih =>
    intro seen h
    unfold dedupFirstAux at h
    split at h
    · exact List.mem_cons_of_mem _ (ih seen h)
    · rcases List.mem_cons.mp h with h | h
      · exact h ▸ List.mem_cons_self _ _
      · exact List.mem_cons_of_mem _ (ih (x :: seen) h)

theorem mem_dedupFirst (a : Str) (l : List Str) (h : a ∈ dedupFirst l) : a ∈ l :=
  mem_dedupFirstAux a l [] h

theorem option_getD_getD {α : Type} (o : Option α) (d : α) :
    o.getD (o.getD d) = o.getD d := by
  cases o <;> rfl

/-- Merging the same partial filters twice is the same as merging them once
(per-field last-write-wins). -/
theorem mergeFilters_idem (f : Filters) (p : PartialFilters) :
    mergeFilters (mergeFilters f p) p = mergeFilters f p := by
  rcases p with ⟨_ | _, _ | _, _ | _, _ | _, _ | _⟩ <;> rfl

/-- Merging an empty partial-filter object changes nothing. -/
theorem mergeFilters_empty (f : Filters) : mergeFilters f {} = f := rfl

/-- `search` on a loaded engine: the unfolded equation. -/
theorem search_eq_of_data (pd : List Profile) (af : Filters) (cr : List Profile)
    (p : PartialFilters) :
    search ⟨some pd, af, cr⟩ p =
      (applyFilters (mergeFilters af p) pd,
        ⟨some pd, mergeFilters af p, applyFilters (mergeFilters af p) pd⟩) := rfl

/-- An empty filter spec filters nothing. -/
theorem applyFilters_initial (data : List Profile) :
    applyFilters initialFilters data = data := rfl

/-- C2.  For any spec, `search(spec)` is a subset by username of `search({})`
run from a cleared engine over the same data; running the same spec twice in a
row returns an identical result list; populating additional filter fields can
only shrink the result length; and from a cleared state the empty spec returns
the whole collection in its original order. -/
theorem search_subset_idempotent_monotone :
    (∀ (s : EngineState) (p : PartialFilters) (u : Str),
      u ∈ ((search s p).1.map fun m => m.username) →
      u ∈ ((search (mkEngine s.processedData) {}).1.map fun m => m.username)) ∧
    (∀ (s : EngineState) (p : PartialFilters),
      (search (search s p).2 p).1 = (search s p).1) ∧
    (∀ (f1 f2 : Filters) (data : List Profile),
      (f1.search = [] ∨ f2.search = f1.search) →
      (f1.location = [] ∨ f2.location = f1.location) →
      (f1.profession = [] ∨ f2.profession = f1.profession) →
      (f1.tags = [] ∨ f2.tags = f1.tags) →
      (applyFilters f2 data).length ≤ (applyFilters f1 data).length) ∧
    (∀ data : List Profile, (search (mkEngine (some data)) {}).1 = data) := by
  have hlen : ∀ (f : Filters) (data : List Profile),
      (applyFilters f data).length = (data.filter (passB f)).length := by
    intro f data
    have h := congrArg List.length (applyFilters_usernames f data)
    simpa using h
  refine ⟨?_, ?_, ?_, ?_⟩
  · rintro ⟨pd, af, cr⟩ p u hu
    cases pd with
    | none => simpa using hu
    | some data =>
      rw [search_eq_of_data] at hu
      show u ∈ (search (mkEngine (some data)) {}).1.map fun m => m.username
      rw [show search (mkEngine (some data)) {} =
        (applyFilters (mergeFilters initialFilters {}) data, _) from rfl]
      rw [mergeFilters_empty, applyFilters_initial]
      rw [applyFilters_usernames] at hu
      rcases List.mem_map.mp hu with ⟨m, hm, rfl⟩
      exact List.mem_map_of_mem _ (List.mem_of_mem_filter hm)
  · rintro ⟨pd, af, cr⟩ p
    cases pd with
    | none => rfl
    | some data =>
      rw [search_eq_of_data, search_eq_of_data, mergeFilters_idem]
  · intro f1 f2 data h1 h2 h3 h4
    rw [hlen, hlen]
    apply length_filter_mono
    intro m hm
    simp only [passB, Bool.and_eq_true, Bool.or_eq_true] at hm ⊢
    obtain ⟨hm1, hm2, hm3, hm4⟩ := hm
    refine ⟨?_, ?_, ?_, ?_⟩
    · rcases h1 with h | h
      · exact Or.inl (by simp [h])
      · rw [h] at hm1
        exact hm1
    · rcases h2 with h | h
      · exact Or.inl (by simp [h])
      · rcases hm2 with hm2 | hm2
        · rw [h] at hm2
          exact Or.inl hm2
        · simp only [locP] at hm2 ⊢
          rw [h] at hm2
          exact Or.inr hm2
    · rcases h3 with h | h
      · exact Or.inl (by simp [h])
      · rcases hm3 with hm3 | hm3
        · rw [h] at hm3
          exact Or.inl hm3
        · simp only [profP] at hm3 ⊢
          rw [h] at hm3
          exact Or.inr hm3
    · rcases h4 with h | h
      · exact Or.inl (by simp [h])
      · rcases hm4 with hm4 | hm4
        · rw [h] at hm4
          exact Or.inl hm4
        · simp only [tagP] at hm4 ⊢
          rw [h] at hm4
          exact Or.inr hm4
  · intro data
    rfl

/-- A profile used in concrete instances below. -/
def Pw : Profile := { username := str "w", location_normalized := some (str "x") }

/-- Witness for `search_subset_idempotent_monotone` at concrete inputs. -/
theorem search_subset_idempotent_monotone_witness :
    (str "w" ∈ ((search (mkEngine (some [Pw])) {}).1.map fun m => m.username)) ∧
    ((search (search (mkEngine (some [Pw])) { location := some (str "x") }).2
        { location := some (str "x") }).1 =
      (search (mkEngine (some [Pw])) { location := some (str "x") }).1) ∧
    ((applyFilters { location := str "x", profession := str "p" } [Pw]).length ≤
      (applyFilters { location := str "x" } [Pw]).length) ∧
    ((search (mkEngine (some [Pw])) {}).1 = [Pw]) :=
  ⟨search_subset_idempotent_monotone.1 (mkEngine (some [Pw]))
      { location := some (str "x") } (str "w") (by decide),
    search_subset_idempotent_monotone.2.1 (mkEngine (some [Pw]))
      { location := some (str "x") },
    search_subset_idempotent_monotone.2.2.1 { location := str "x" }
      { location := str "x", profession := str "p" } [Pw] (by decide) (by decide)
      (by decide) (by decide),
    search_subset_idempotent_monotone.2.2.2 [Pw]⟩

/-- Membership in a conditional filter stage implies membership in its input. -/
theorem mem_of_mem_condFilter {α : Type} {c : Prop} [Decidable c] {p : α → Bool}
    {l : List α} {m : α} (h : m ∈ (if c then l.filter p else l)) : m ∈ l := by
  split at h
  · exact List.mem_of_mem_filter h
  · exact h

/-- Every pipeline result is a member of the collection with at most the
`relevanceScore` field changed. -/
theorem applyFilters_mem (f : Filters) (data : List Profile) (m : Profile)
    (hm : m ∈ applyFilters f data) :
    ∃ m0 ∈ data, m = { m0 with relevanceScore := m.relevanceScore } := by
  simp only [applyFilters, applyTextSearch] at hm
  replace hm := mem_of_mem_condFilter hm
  replace hm := mem_of_mem_condFilter hm
  replace hm := mem_of_mem_condFilter hm
  split at hm
  · split at hm
    · exact ⟨m, hm, rfl⟩
    · rcases List.mem_map.mp hm with ⟨m0, hm0, rfl⟩
      exact ⟨m0, List.mem_of_mem_filter hm0, rfl⟩
  · exact ⟨m, hm, rfl⟩

/-- C8.  No query operation mutates shared state: `sortResults` returns a new
permuted sequence (same elements, input list untouched); `search` leaves the
processed collection unchanged and every result it returns is a member of the
collection with at most a `relevanceScore` attached; every
`findSimilarMembers` result is a member of the collection with at most a
`similarityScore` attached. -/
theorem query_ops_no_mutation :
    (∀ (results : List Profile) (c : Str), (sortResults results c).Perm results) ∧
    (∀ (s : EngineState) (p : PartialFilters),
      (search s p).2.processedData = s.processedData ∧
        ∀ m ∈ (search s p).1, ∃ m0 ∈ s.processedData.getD [],
          m = { m0 with relevanceScore := m.relevanceScore }) ∧
    (∀ (pd : List Profile) (t : Profile) (count : Nat),
      ∀ m ∈ findSimilarMembers (some pd) (some t) count,
        ∃ m0 ∈ pd, m = { m0 with similarityScore := m.similarityScore }) := by
  refine ⟨?_, ?_, ?_⟩
  · intro results c
    unfold sortResults
    split_ifs <;> exact jsSortBy_perm _ _
  · rintro ⟨pd, af, cr⟩ p
    cases pd with
    | none => exact ⟨rfl, by simp [search]⟩
    | some data =>
      rw [search_eq_of_data]
      exact ⟨rfl, fun m hm => applyFilters_mem _ _ m hm⟩
  · intro pd t count m hm
    unfold findSimilarMembers at hm
    have hm2 := (mem_jsSortBy _ _ m).mp (List.mem_of_mem_take hm)
    rcases List.mem_map.mp hm2 with ⟨m0, hm0, rfl⟩
    exact ⟨m0, List.mem_of_mem_filter hm0, rfl⟩

def Tw : Profile := { username := str "t" }

def Cw : Profile := { username := str "c" }

/-- The augmented copy of `Cw` produced by `findSimilarMembers` for the
target `Tw`. -/
def CwAug : Profile := { Cw with similarityScore := some (calculateProfileSimilarity Tw Cw) }

/-- Witness for `query_ops_no_mutation` at concrete inputs. -/
theorem query_ops_no_mutation_witness :
    (∃ m0 ∈ [Pw], Pw = { m0 with relevanceScore := Pw.relevanceScore }) ∧
    (∃ m0 ∈ [Tw, Cw], CwAug = { m0 with similarityScore := CwAug.similarityScore }) :=
  ⟨(query_ops_no_mutation.2.1 (mkEngine (some [Pw])) {}).2 Pw (by decide),
    query_ops_no_mutation.2.2 [Tw, Cw] Tw 10 CwAug (List.mem_cons_self _ _)⟩

/-!
## Sortedness of `findSimilarMembers`
-/

/-- "Descending by similarity score" for two adjacent results, with JS NaN
semantics: the comparison only holds between two non-NaN scores. -/
def scoreGe (m1 m2 : Profile) : Prop :=
  ∃ q1 q2 : ℚ, simScoreOf m1 = some q1 ∧ simScoreOf m2 = some q2 ∧ q2 ≤ q1

theorem simBefore_true_of {m1 m2 : Profile} {q1 q2 : ℚ} (h1 : simScoreOf m1 = some q1)
    (h2 : simScoreOf m2 = some q2) (h : simBefore m1 m2 = true) : q2 ≤ q1 := by
  unfold simBefore at h
  rw [h1, h2] at h
  simpa [jsSub] using h

theorem simBefore_false_of {m1 m2 : Profile} {q1 q2 : ℚ} (h1 : simScoreOf m1 = some q1)
    (h2 : simScoreOf m2 = some q2) (h : simBefore m1 m2 = false) : q1 ≤ q2 := by
  unfold simBefore at h
  rw [h1, h2] at h
  simp [jsSub] at h
  linarith

theorem insertR_sorted (x : Profile) (acc : List Profile)
    (hx : (simScoreOf x).isSome) (hacc : ∀ m ∈ acc, (simScoreOf m).isSome)
    (hs : acc.Pairwise scoreGe) : (insertR simBefore x acc).Pairwise scoreGe := by
  induction acc with
  | nil => simp [insertR]
  | cons y ys ih =>
    obtain ⟨qx, hqx⟩ := Option.isSome_iff_exists.mp hx
    obtain ⟨qy, hqy⟩ := Option.isSome_iff_exists.mp (hacc y (List.mem_cons_self _ _))
    unfold insertR
    rcases hr : simBefore y x with _ | _
    · simp only [Bool.false_eq_true, if_false]
      have hxy : scoreGe x y := ⟨qx, qy, hqx, hqy, simBefore_false_of hqy hqx hr⟩
      refine List.Pairwise.cons ?_ hs
      intro z hz
      rcases List.mem_cons.mp hz with rfl | hz
      · exact hxy
      · obtain ⟨qz, hqz⟩ := Option.isSome_iff_exists.mp (hacc z (List.mem_cons_of_mem _ hz))
        obtain ⟨qy2, qz2, hqy2, hqz2, hle⟩ := (List.pairwise_cons.mp hs).1 z hz
        rw [hqy] at hqy2
        rw [hqz] at hqz2
        cases hqy2
        cases hqz2
        exact ⟨qx, qz, hqx, hqz, le_trans hle
          (le_trans (simBefore_false_of hqy hqx hr) (le_refl _))⟩
    · simp only [if_true]
      have hsorted := List.pairwise_cons.mp hs
      refine List.Pairwise.cons ?_ (ih (fun m hm => hacc m (List.mem_cons_of_mem _ hm))
        hsorted.2)
      intro z hz
      rcases (mem_insertR _ _ _ _).mp hz with rfl | hz
      · exact ⟨qy, qx, hqy, hqx, simBefore_true_of hqy hqx hr⟩
      · exact hsorted.1 z hz

theorem jsSortBy_sorted_scores (l : List Profile)
    (hall : ∀ m ∈ l, (simScoreOf m).isSome) :
    (jsSortBy simBefore l).Pairwise scoreGe := by
  suffices h : ∀ (acc : List Profile), acc.Pairwise scoreGe →
      (∀ m ∈ acc, (simScoreOf m).isSome) → (∀ m ∈ l, (simScoreOf m).isSome) →
      (l.foldl (fun acc x => insertR simBefore x acc) acc).Pairwise scoreGe by
    exact h [] (by simp) (by simp) hall
  clear hall
  induction l with
  | nil => intro acc hs _ _; exact hs
  | cons x xs ih =>
    intro acc hs hacc hall
    rw [List.foldl_cons]
    refine ih (insertR simBefore x acc)
      (insertR_sorted x acc (hall x (List.mem_cons_self _ _)) hacc hs) ?_
      fun m hm => hall m (List.mem_cons_of_mem _ hm)
    intro m hm
    rcases (mem_insertR _ _ _ _).mp hm with rfl | hm
    · exact hall m (List.mem_cons_self _ _)
    · exact hacc m hm

/-- C6 (amended).  `findSimilarMembers` never returns the target's username
and returns at most `count` entries — unconditionally; and *whenever no
candidate's similarity score is NaN*, the output is sorted descending by
similarity score.  (With NaN scores — both tag lists or both keyword lists
present but empty, see `calculateProfileSimilarity_nan_counterexample` —
sortedness fails, see `findSimilarMembers_sort_counterexample`.) -/
theorem findSimilarMembers_amended :
    ∀ (data : List Profile) (t : Profile) (count : Nat),
      (∀ m ∈ findSimilarMembers (some data) (some t) count, m.username ≠ t.username) ∧
      (findSimilarMembers (some data) (some t) count).length ≤ count ∧
      ((∀ m ∈ data, m.username ≠ t.username → calculateProfileSimilarity t m ≠ none) →
        (findSimilarMembers (some data) (some t) count).Pairwise scoreGe) := by
  intro data t count
  refine ⟨?_, ?_, ?_⟩
  · intro m hm
    unfold findSimilarMembers at hm
    have hm2 := (mem_jsSortBy _ _ m).mp (List.mem_of_mem_take hm)
    rcases List.mem_map.mp hm2 with ⟨m0, hm0, rfl⟩
    have := (List.mem_filter.mp hm0).2
    simpa using this
  · unfold findSimilarMembers
    exact List.length_take_le _ _
  · intro hnn
    unfold findSimilarMembers
    refine List.Pairwise.sublist (List.take_sublist _ _) ?_
    apply jsSortBy_sorted_scores
    intro m hm
    rcases List.mem_map.mp hm with ⟨m0, hm0, rfl⟩
    have hf := List.mem_filter.mp hm0
    have hne : m0.username ≠ t.username := by simpa using hf.2
    have h0 := hnn m0 hf.1 hne
    simpa [simScoreOf, Option.isSome_iff_ne_none] using h0

/-- A target whose tag and keyword lists are present but empty. -/
def nanT : Profile :=
  { username := str "t", tags := some [], professional_keywords := some [],
    location_normalized := some (str "x") }

/-- A candidate with empty tag/keyword lists: its similarity to `nanT` is JS
NaN. -/
def nanA : Profile :=
  { username := str "a", tags := some [], professional_keywords := some [] }

/-- A candidate with a well-defined (0.3) similarity to `nanT`. -/
def nanB : Profile :=
  { username := str "b", tags := some [str "a"], professional_keywords := some [str "k"],
    location_normalized := some (str "x") }

/-- C6 (counterexample).  With a NaN similarity score in play (both the target
and a candidate have present-but-empty tag lists), the output of
`findSimilarMembers` is *not* sorted in descending order of similarity score:
the NaN-scored candidate stays in front of a candidate scoring 0.3. -/
theorem findSimilarMembers_sort_counterexample :
    ¬ (findSimilarMembers (some [nanT, nanA, nanB]) (some nanT) 10).Pairwise scoreGe := by
  have hmap : ((findSimilarMembers (some [nanT, nanA, nanB]) (some nanT) 10).map
      fun m => (simScoreOf m).isNone) = [true, false] := rfl
  intro h
  rcases hl : findSimilarMembers (some [nanT, nanA, nanB]) (some nanT) 10 with _ | ⟨a, tail⟩
  · rw [hl] at hmap
    simp at hmap
  rcases tail with _ | ⟨b, rest⟩
  · rw [hl] at hmap
    simp at hmap
  · rw [hl] at h hmap
    simp only [List.map_cons] at hmap
    injection hmap with h1 h2
    have hab : scoreGe a b := (List.pairwise_cons.mp h).1 b (by simp)
    obtain ⟨q1, q2, hq1, hq2, hle⟩ := hab
    rw [hq1] at h1
    simp at h1

def okT : Profile :=
  { username := str "t", tags := some [str "a"], professional_keywords := some [str "k"] }

def okC : Profile :=
  { username := str "c", tags := some [str "a"], professional_keywords := some [str "k"] }

/-- The augmented copy of `okC` produced by `findSimilarMembers` for target
`okT`. -/
def okCAug : Profile := { okC with similarityScore := some (calculateProfileSimilarity okT okC) }

/-- Witness for `findSimilarMembers_amended` at concrete inputs. -/
theorem findSimilarMembers_amended_witness :
    (okCAug.username ≠ okT.username) ∧
    ((findSimilarMembers (some [okT, okC]) (some okT) 10).length ≤ 10) ∧
    ((findSimilarMembers (some [okT, okC]) (some okT) 10).Pairwise scoreGe) :=
  ⟨(findSimilarMembers_amended [okT, okC] okT 10).1 okCAug (List.mem_cons_self _ _),
    (findSimilarMembers_amended [okT, okC] okT 10).2.1,
    (findSimilarMembers_amended [okT, okC] okT 10).2.2 (by decide)⟩

/-!
## C1: the per-candidate similarity formula
-/

/-- The similarity formula as the specification states it: 0.3 for an exact
normalized-location match, plus 0.4 × (case-insensitive tag intersection ÷
larger tag-set size), plus 0.1 × (keyword intersection ÷ larger keyword-set
size), with both ratio terms contributing 0 whenever the larger size is 0. -/
def specProfileSimilarity (m1 m2 : Profile) : ℚ :=
  (if m1.location_normalized = m2.location_normalized then 3 / 10 else 0) +
    (match m1.tags, m2.tags with
     | some t1, some t2 =>
       if max t1.length t2.length = 0 then 0
       else (4 / 10) * (((t1.filter fun tag =>
           t2.any fun tag2 => decide (toLowerStr tag2 = toLowerStr tag)).length : ℚ) /
           (max t1.length t2.length : ℚ))
     | _, _ => 0) +
    (match m1.professional_keywords, m2.professional_keywords with
     | some k1, some k2 =>
       if max k1.length k2.length = 0 then 0
       else (1 / 10) * (((k1.filter fun kw => decide (kw ∈ k2)).length : ℚ) /
           (max k1.length k2.length : ℚ))
     | _, _ => 0)

/-- Two profiles with present-but-empty tag and keyword lists (what the
normalizer produces for members without tags and without a professional
summary). -/
def cxP1 : Profile := { username := str "p1", tags := some [], professional_keywords := some [] }

def cxP2 : Profile := { username := str "p2", tags := some [], professional_keywords := some [] }

/-- C1 (counterexample).  The source's score is *not* the zero-guarded
formula: with both tag lists present but empty the division `0/0` yields NaN,
which poisons the whole score (`none`), while the claimed formula yields the
plain rational 0.3 (the locations, both null, match). -/
theorem calculateProfileSimilarity_nan_counterexample :
    calculateProfileSimilarity cxP1 cxP2 ≠ some (specProfileSimilarity cxP1 cxP2) := by
  have h : calculateProfileSimilarity cxP1 cxP2 = none := rfl
  rw [h]
  simp

/-- C1 (amended).  Whenever neither ratio is `0/0` — that is, whenever it is
not the case that both sides have a present-but-empty tag list, nor both a
present-but-empty keyword list — the score equals the zero-guarded
specification formula.  (In the remaining case the score is NaN, see the
counterexample.) -/
theorem calculateProfileSimilarity_amended (m1 m2 : Profile)
    (ht : match m1.tags, m2.tags with
          | some t1, some t2 => t1 ≠ [] ∨ t2 ≠ []
          | _, _ => True)
    (hk : match m1.professional_keywords, m2.professional_keywords with
          | some k1, some k2 => k1 ≠ [] ∨ k2 ≠ []
          | _, _ => True) :
    calculateProfileSimilarity m1 m2 = some (specProfileSimilarity m1 m2) := by
  unfold calculateProfileSimilarity specProfileSimilarity
  rcases h1 : m1.tags with _ | t1 <;> rcases h2 : m2.tags with _ | t2 <;>
    rcases h3 : m1.professional_keywords with _ | k1 <;>
    rcases h4 : m2.professional_keywords with _ | k2 <;>
    rw [h1, h2] at ht <;> rw [h3, h4] at hk <;> dsimp only at ht hk ⊢
  all_goals
    try (have hmaxt : ¬ (max t1.length t2.length = 0) := by
          rcases ht with h | h <;>
          · have := List.length_pos.mpr h
            omega)
  all_goals
    try (have hmaxk : ¬ (max k1.length k2.length = 0) := by
          rcases hk with h | h <;>
          · have := List.length_pos.mpr h
            omega)
  all_goals simp only [jsDivNat, jsAdd, jsMul]
  all_goals try simp only [if_neg hmaxt]
  all_goals try simp only [if_neg hmaxk]
  all_goals split_ifs
  all_goals try simp only [jsAdd, jsMul]
  all_goals congr 1
  all_goals push_cast
  all_goals try ring

def wP1 : Profile :=
  { username := str "w1", tags := some [str "a"], professional_keywords := some [str "k"] }

def wP2 : Profile :=
  { username := str "w2", tags := some [str "a"], professional_keywords := some [str "j"] }

/-- Witness for `calculateProfileSimilarity_amended` at concrete inputs. -/
theorem calculateProfileSimilarity_amended_witness :
    calculateProfileSimilarity wP1 wP2 = some (specProfileSimilarity wP1 wP2) :=
  calculateProfileSimilarity_amended wP1 wP2
    (by dsimp only [wP1, wP2]; exact Or.inl (by decide))
    (by dsimp only [wP1, wP2]; exact Or.inl (by decide))

/-!
## C3: the text filter
-/

/-- Splitting on every whitespace character (what the claim's "split on
whitespace" means), keeping empty pieces. -/
def splitOnWsChar : Str → List Str
  | [] => [[]]
  | c :: cs =>
    match splitOnWsChar cs with
    | [] => []
    | w :: ws => if isWsChar c then [] :: w :: ws else (c :: w) :: ws

/-- The claim's pass condition, as stated: terms come from *whitespace*
splitting of the lowercased search text, and fuzzy words from whitespace
splitting of the searchable text. -/
def claimTextPass (s : Str) (m : Profile) : Prop :=
  ∀ term ∈ (splitOnWsChar (toLowerStr s)).filter (fun t => t.length > 0),
    jsIncludes m.searchable_text term = true ∨
      (4 ≤ term.length ∧ ∃ w ∈ splitOnWsChar m.searchable_text, 3 ≤ w.length ∧
        stringSimilarity w term > 7 / 10)

instance (s : Str) (m : Profile) : Decidable (claimTextPass s m) := by
  unfold claimTextPass
  infer_instance

/-- The corrected pass condition: splitting happens on the space character
only (JS `split(' ')`), both for the search terms and for the fuzzy words. -/
def amendedTextPass (s : Str) (m : Profile) : Prop :=
  ∀ term ∈ termsOf s,
    jsIncludes m.searchable_text term = true ∨
      (4 ≤ term.length ∧ ∃ w ∈ splitOnSpace m.searchable_text, 3 ≤ w.length ∧
        stringSimilarity w term > 7 / 10)

instance (s : Str) (m : Profile) : Decidable (amendedTextPass s m) := by
  unfold amendedTextPass
  infer_instance

/-- A profile whose searchable text is `"a b"`. -/
def tabP : Profile := { username := str "alice", searchable_text := str "a b" }

/-- C3 (counterexample).  For the search text `"a\tb"` (non-empty, containing
a tab), the claim's whitespace-splitting predicates the profile *passes*
(terms `"a"`, `"b"` are both substrings), but the code splits on the space
character only, keeps the single term `"a\tb"`, and filters the profile out:
`search` returns no results. -/
theorem applyTextSearch_whitespace_counterexample :
    claimTextPass (str "a\tb") tabP ∧
      (search (mkEngine (some [tabP])) { search := some (str "a\tb") }).1 = [] := by
  constructor
  · decide
  · rfl

/-- C3 (amended).  For a non-empty search text: if the text JS-trims to
empty, no filtering happens; otherwise a profile survives `applyTextSearch`
iff every *space*-split lowercased term is a literal substring of its
searchable text or fuzzy-matches it (term length ≥ 4, some space-delimited
word of length ≥ 3 with similarity > 0.7), survivors keeping their input
order (the result is the filtered list, with only `relevanceScore`
changed). -/
theorem applyTextSearch_amended (data : List Profile) (s : Str) (h0 : s ≠ []) :
    (jsTrim s = [] → applyTextSearch data s = data) ∧
    (jsTrim s ≠ [] →
      (applyTextSearch data s).map (fun m => { m with relevanceScore := none }) =
        (data.filter fun m => decide (amendedTextPass s m)).map
          (fun m => { m with relevanceScore := none })) := by
  have fuzzy_iff : ∀ (text term : Str), fuzzyMatch text term = true ↔
      (4 ≤ term.length ∧ ∃ w ∈ splitOnSpace text, 3 ≤ w.length ∧
        stringSimilarity w term > 7 / 10) := by
    intro text term
    unfold fuzzyMatch
    split
    · rename_i hlt
      simp only [Bool.false_eq_true, false_iff]
      rintro ⟨h4, -⟩
      omega
    · rename_i hge
      rw [List.any_eq_true]
      constructor
      · rintro ⟨w, hw, hcond⟩
        refine ⟨by omega, w, hw, ?_⟩
        split at hcond
        · exact absurd hcond (by simp)
        · rename_i h3
          exact ⟨by omega, of_decide_eq_true hcond⟩
      · rintro ⟨h4, w, hw, h3, hsim⟩
        refine ⟨w, hw, ?_⟩
        rw [if_neg (by omega)]
        exact decide_eq_true hsim
  have match_iff : ∀ m, textMatchB s m = decide (amendedTextPass s m) := by
    intro m
    have hiff : textMatchB s m = true ↔ amendedTextPass s m := by
      unfold textMatchB amendedTextPass
      rw [List.all_eq_true]
      constructor
      · intro h term hterm
        have := h term hterm
        rcases Bool.or_eq_true_iff.mp this with h | h
        · exact Or.inl h
        · exact Or.inr ((fuzzy_iff _ _).mp h)
      · intro h term hterm
        rcases h term hterm with h | h
        · exact Bool.or_eq_true_iff.mpr (Or.inl h)
        · exact Bool.or_eq_true_iff.mpr (Or.inr ((fuzzy_iff _ _).mpr h))
    cases hA : decide (amendedTextPass s m) with
    | true => exact hiff.mpr (of_decide_eq_true hA)
    | false =>
      cases hB : textMatchB s m with
      | true => exact absurd (decide_eq_true (hiff.mp hB)) (by simp [hA])
      | false => rfl
  constructor
  · intro htrim
    unfold applyTextSearch
    rw [if_pos (by simp [htrim])]
  · intro htrim
    unfold applyTextSearch
    rw [if_neg (by simp [htrim])]
    rw [List.map_map]
    rw [List.filter_congr fun m _ => match_iff m]
    exact List.map_congr_left fun m _ => rfl

/-- Witness for `applyTextSearch_amended` at concrete inputs. -/
theorem applyTextSearch_amended_witness :
    (applyTextSearch [tabP] (str "a b")).map (fun m => { m with relevanceScore := none }) =
      ([tabP].filter fun m => decide (amendedTextPass (str "a b") m)).map
        (fun m => { m with relevanceScore := none }) :=
  (applyTextSearch_amended [tabP] (str "a b") (by decide)).2 (by decide)

/-!
## C4: `stringSimilarity` and the classic Levenshtein distance
-/

/-- C4.  `stringSimilarity a b` equals
`(longer.length − levenshtein(longer, shorter)) / longer.length`, where
`longer`/`shorter` order the inputs by length and `levenshtein` is the classic
unit-cost Levenshtein distance (Mathlib's `levenshtein Levenshtein.defaultCost`),
whenever at least one input is non-empty (so the formula's denominator is
non-zero); in particular kitten/sitting score 4/7 and abc/abc scores 1. -/
theorem stringSimilarity_spec :
    (∀ a b : Str, a ≠ [] ∨ b ≠ [] →
      stringSimilarity a b =
        (((if a.length > b.length then a else b).length : ℚ) -
            (levenshtein dC (if a.length > b.length then a else b)
              (if a.length > b.length then b else a) : ℕ)) /
          ((if a.length > b.length then a else b).length : ℚ)) ∧
    stringSimilarity (str "kitten") (str "sitting") = 4 / 7 ∧
    stringSimilarity (str "abc") (str "abc") = 1 := by
  have hmain : ∀ a b : Str, a ≠ [] ∨ b ≠ [] →
      stringSimilarity a b =
        (((if a.length > b.length then a else b).length : ℚ) -
            (levenshtein dC (if a.length > b.length then a else b)
              (if a.length > b.length then b else a) : ℕ)) /
          ((if a.length > b.length then a else b).length : ℚ) := by
    intro a b h
    simp only [stringSimilarity]
    by_cases hab : a = b
    · subst hab
      rw [if_pos rfl, if_neg (lt_irrefl _), lev_self]
      have ha : a ≠ [] := by rcases h with h | h <;> exact h
      have hlen : (a.length : ℚ) ≠ 0 :=
        Nat.cast_ne_zero.mpr (by have := List.length_pos.mpr ha; omega)
      rw [Nat.cast_zero, sub_zero, div_self hlen]
    · rw [if_neg hab]
      by_cases hz : a.length = 0 ∨ b.length = 0
      · rw [if_pos hz]
        rcases hz with hz | hz
        · have ha : a = [] := List.length_eq_zero.mp hz
          subst ha
          rw [if_neg (by simp), if_neg (by simp)]
          rw [lev_nil_right]
          simp
        · have hb : b = [] := List.length_eq_zero.mp hz
          subst hb
          have ha : a ≠ [] := by
            rcases h with h | h
            · exact h
            · exact absurd rfl h
          rw [if_pos (by have := List.length_pos.mpr ha; simpa using this),
            if_pos (by have := List.length_pos.mpr ha; simpa using this)]
          rw [lev_nil_right]
          simp
      · rw [if_neg hz]
        push_neg at hz
        have hlong : ¬ ((if a.length > b.length then a else b).length = 0) := by
          split_ifs
          · omega
          · omega
        rw [if_neg hlong, levenshteinDistance_eq_levenshtein]
  refine ⟨hmain, ?_, ?_⟩
  · have h := hmain (str "kitten") (str "sitting") (by decide)
    rw [h]
    rw [if_neg (by decide), if_neg (by decide)]
    have hlev : levenshtein dC (str "sitting") (str "kitten") = 3 := by
      rw [← levenshteinDistance_eq_levenshtein]
      decide
    rw [hlev]
    rw [show (str "sitting").length = 7 from by decide]
    norm_num
  · have h := hmain (str "abc") (str "abc") (by decide)
    rw [h]
    rw [if_neg (by decide), lev_self]
    rw [show (str "abc").length = 3 from by decide]
    norm_num

/-- Witness for the guarded part of `stringSimilarity_spec` at concrete
inputs. -/
theorem stringSimilarity_spec_witness :
    (str "kitten" ≠ [] ∨ str "sitting" ≠ []) ∧
    stringSimilarity (str "kitten") (str "sitting") =
      (((if (str "kitten").length > (str "sitting").length
            then str "kitten" else str "sitting").length : ℚ) -
          (levenshtein dC
            (if (str "kitten").length > (str "sitting").length
              then str "kitten" else str "sitting")
            (if (str "kitten").length > (str "sitting").length
              then str "sitting" else str "kitten") : ℕ)) /
        ((if (str "kitten").length > (str "sitting").length
            then str "kitten" else str "sitting").length : ℚ) :=
  ⟨by decide, stringSimilarity_spec.1 (str "kitten") (str "sitting") (by decide)⟩

/-!
## C5: relevance scoring
-/

/-- A non-empty term is never a substring of the empty string. -/
theorem jsIncludes_nil (t : Str) (ht : t ≠ []) : jsIncludes [] t = false := by
  unfold jsIncludes
  simp only [decide_eq_false_iff_not]
  rintro ⟨s, t2, hst⟩
  rw [List.append_eq_nil] at hst
  rw [List.append_eq_nil] at *
  exact ht (by tauto)

/-- The per-term weight as the specification states it: 10 for a name match,
5 for a professional-summary match, 5 when some tag contains the term, 2 for
a personal-summary match and 3 for a location match (all case-insensitive
substring tests; terms are already lowercased). -/
def specTermWeight (m : Profile) (term : Str) : Nat :=
  (if jsIncludes (toLowerStr m.name) term then 10 else 0) +
    (if jsIncludes (toLowerStr m.professional_summary) term then 5 else 0) +
    (if (m.tags.getD []).any (fun tag => jsIncludes (toLowerStr tag) term) then 5 else 0) +
    (if jsIncludes (toLowerStr m.personal_summary) term then 2 else 0) +
    (if jsIncludes (toLowerStr m.location) term then 3 else 0)

theorem relevanceStep_eq (m : Profile) (s : Nat) (t : Str) (ht : t ≠ []) :
    relevanceStep m s t = s + specTermWeight m t := by
  unfold relevanceStep specTermWeight
  have e1 : (!m.name.isEmpty && jsIncludes (toLowerStr m.name) t) =
      jsIncludes (toLowerStr m.name) t := by
    cases m.name with
    | nil => simp [toLowerStr, jsIncludes_nil t ht]
    | cons c cs => simp [List.isEmpty]
  have e2 : (!m.professional_summary.isEmpty &&
      jsIncludes (toLowerStr m.professional_summary) t) =
      jsIncludes (toLowerStr m.professional_summary) t := by
    cases m.professional_summary with
    | nil => simp [toLowerStr, jsIncludes_nil t ht]
    | cons c cs => simp [List.isEmpty]
  have e4 : (!m.personal_summary.isEmpty &&
      jsIncludes (toLowerStr m.personal_summary) t) =
      jsIncludes (toLowerStr m.personal_summary) t := by
    cases m.personal_summary with
    | nil => simp [toLowerStr, jsIncludes_nil t ht]
    | cons c cs => simp [List.isEmpty]
  have e5 : (!m.location.isEmpty && jsIncludes (toLowerStr m.location) t) =
      jsIncludes (toLowerStr m.location) t := by
    cases m.location with
    | nil => simp [toLowerStr, jsIncludes_nil t ht]
    | cons c cs => simp [List.isEmpty]
  rw [e1, e2, e4, e5]
  rcases htags : m.tags with _ | tags <;> dsimp only <;>
    simp only [Option.getD_none, Option.getD_some, List.any_nil, Bool.false_eq_true,
      if_false] <;>
    split_ifs <;> omega

def founderRaw : RawProfile :=
  { username := str "f",
    professional_summary := some (str "Founder of a blockchain startup") }

/-- The normalized profile with professional summary
"Founder of a blockchain startup". -/
def founderP : Profile := normalizeMember founderRaw

/-- C5.  The relevance score is the sum, over all search terms, of the
specification's per-term weights (10 name / 5 professional summary / 5 tag /
2 personal summary / 3 location), with no normalization or cap; and searching
`"founder"` over a collection holding the founder profile returns it with
relevance score exactly 5 (≥ 5, from the professional-summary match). -/
theorem calculateRelevanceScore_spec :
    (∀ (m : Profile) (terms : List Str), (∀ t ∈ terms, t ≠ []) →
      calculateRelevanceScore m terms = (terms.map (specTermWeight m)).sum) ∧
    (∃ r ∈ (search (mkEngine (some [founderP])) { search := some (str "founder") }).1,
      r.username = founderP.username ∧ ∃ n, r.relevanceScore = some n ∧ 5 ≤ n) := by
  constructor
  · intro m terms hterms
    unfold calculateRelevanceScore
    suffices hgen : ∀ (ts : List Str) (init : Nat), (∀ t ∈ ts, t ≠ []) →
        ts.foldl (relevanceStep m) init = init + (ts.map (specTermWeight m)).sum by
      simpa using hgen terms 0 hterms
    intro ts
    induction ts with
    | nil => intro init _; simp
    | cons t ts ih =>
      intro init hts
      rw [List.foldl_cons, relevanceStep_eq m init t (hts t (List.mem_cons_self _ _)),
        ih (init + specTermWeight m t) fun x hx => hts x (List.mem_cons_of_mem _ hx)]
      simp only [List.map_cons, List.sum_cons]
      omega
  · refine ⟨{ founderP with relevanceScore := some 5 }, by decide, by decide, 5, rfl, by omega⟩

/-- Witness for `calculateRelevanceScore_spec` at concrete inputs. -/
theorem calculateRelevanceScore_spec_witness :
    calculateRelevanceScore founderP [str "founder"] =
      ([str "founder"].map (specTermWeight founderP)).sum :=
  calculateRelevanceScore_spec.1 founderP [str "founder"] (by decide)

/-!
## C7: normalization of a record with no optional fields
-/

/-- C7.  Normalization is total and degrades missing fields: a raw record
with no optional fields normalizes to empty cleaned text fields, present but
empty tag and keyword lists, null normalized location and no social links;
and location normalization lowercases, trims and alias-maps, sending both
`"SF "` and `"Bay Area"` to `"san francisco"`. -/
theorem normalize_empty_defaults :
    (∀ u : Str,
      (normalizeMember { username := u }).name = [] ∧
      (normalizeMember { username := u }).location = [] ∧
      (normalizeMember { username := u }).professional_summary = [] ∧
      (normalizeMember { username := u }).personal_summary = [] ∧
      (normalizeMember { username := u }).philosophical_summary = [] ∧
      (normalizeMember { username := u }).tags = some [] ∧
      (normalizeMember { username := u }).professional_keywords = some [] ∧
      (normalizeMember { username := u }).location_normalized = none ∧
      (normalizeMember { username := u }).has_social_links = false) ∧
    (∀ rawData : List RawProfile, processData rawData = rawData.map normalizeMember) ∧
    normalizeLocation (some (str "SF ")) = some (str "san francisco") ∧
    normalizeLocation (some (str "Bay Area")) = some (str "san francisco") :=
  ⟨fun u => ⟨rfl, rfl, rfl, rfl, rfl, rfl, rfl, rfl, rfl⟩, fun _ => rfl,
    by decide, by decide⟩

/-!
## C9: queries with no data loaded
-/

/-- C9.  With no processed data, `search`, `findSimilarMembers` and
`getTrendingTags` all return an empty list instead of failing (and `search`
leaves its state untouched, not even merging the filters). -/
theorem no_data_empty_results :
    ∀ (af : Filters) (cr : List Profile) (p : PartialFilters) (t : Option Profile)
      (count limit : Nat),
      search ⟨none, af, cr⟩ p = ([], ⟨none, af, cr⟩) ∧
      findSimilarMembers none t count = [] ∧
      getTrendingTags none limit = [] := by
  intro af cr p t count limit
  refine ⟨rfl, ?_, rfl⟩
  cases t <;> rfl

/-!
## C10: whitespace-only locations
-/

theorem toLower_of_ws (c : Char) (h : isWsChar c = true) : Char.toLower c = c := by
  simp only [isWsChar, Bool.or_eq_true, beq_iff_eq] at h
  rcases h with ((((rfl | rfl) | rfl) | rfl) | rfl) | rfl <;> decide

theorem jsTrim_toLower_ws (s : Str) (h : ∀ c ∈ s, isWsChar c = true) :
    jsTrim (toLowerStr s) = [] := by
  have hall : ∀ c ∈ toLowerStr s, isWsChar c = true := by
    intro c hc
    rcases List.mem_map.mp hc with ⟨d, hd, rfl⟩
    rw [toLower_of_ws d (h d hd)]
    exact h d hd
  unfold jsTrim
  rw [List.dropWhile_eq_nil_iff.mpr hall]
  rfl

/-- C10.  A raw profile whose location is non-empty but all whitespace
normalizes to `location_normalized` equal to the empty string — not null —
while `has_location` is `true`; and the location filter options never
contain an empty value, because `getFilterOptions` drops falsy entries. -/
theorem whitespace_location_spec :
    (∀ (m : RawProfile) (s : Str), m.location = some s → s ≠ [] →
        (∀ c ∈ s, isWsChar c = true) →
        (normalizeMember m).location_normalized = some [] ∧
        (normalizeMember m).has_location = true) ∧
    (∀ (data : List Profile) (opts : FilterOptions) (l : Str),
        getFilterOptions (some data) = some opts → l ∈ opts.locations → l ≠ []) := by
  constructor
  · intro m s hm hne hws
    constructor
    · show normalizeLocation m.location = some []
      rw [hm]
      unfold normalizeLocation
      dsimp only
      rw [if_neg hne, jsTrim_toLower_ws s hws]
      rfl
    · show jsTruthyStr m.location = true
      rw [hm]
      cases s with
      | nil => exact absurd rfl hne
      | cons c cs => rfl
  · intro data opts l hopts hl
    unfold getFilterOptions at hopts
    rw [Option.some_inj] at hopts
    subst hopts
    dsimp only at hl
    have h1 := mem_dedupFirst l _ ((mem_jsSortBy strLe _ l).mp hl)
    rcases List.mem_filterMap.mp h1 with ⟨o, _, ho⟩
    rcases o with _ | s
    · simp at ho
    · dsimp only at ho
      split_ifs at ho with hs
      exact (Option.some_inj.mp ho) ▸ hs

/-- A raw profile whose location is a single space. -/
def wsRaw : RawProfile := { username := str "u", location := some (str " ") }

/-- A raw profile whose location is `"NYC"`. -/
def nycRaw : RawProfile := { username := str "v", location := some (str "NYC") }

/-- Witness for `whitespace_location_spec` at concrete inputs. -/
theorem whitespace_location_spec_witness :
    ((normalizeMember wsRaw).location_normalized = some [] ∧
      (normalizeMember wsRaw).has_location = true) ∧
    str "new york" ≠ [] :=
  ⟨whitespace_location_spec.1 wsRaw (str " ") rfl (by decide) (by decide),
   whitespace_location_spec.2 [normalizeMember wsRaw, normalizeMember nycRaw]
     { locations := [str "new york"], tags := [], professions := [] }
     (str "new york") (by decide) (by decide)⟩

end NSocial
